import Mathlib

/-!
Verification of the advanced-vector repository (src/advanced-vector/vector.h).

The C++ source implements two layered components:

* `RawMemory<T>`: an owned region of uninitialized storage for `capacity_`
  elements (`buffer_` is the region pointer, null iff no region is owned).
* `Vector<T>`: a growable array on top of one `RawMemory<T>`, tracking the
  number `size_` of constructed elements in the prefix of the region.

The embedding below is a shallow model of that code.

`RawMemory` is modelled at the region level: a region is identified by a
natural number, `buffer = none` models a null `buffer_`, and `Deallocate`
calls are recorded as the list of region identifiers freed, so that
double-release behaviour is observable.

`Vector` is modelled at the slot level.  A buffer is a list of `Slot`s, one
per capacity unit.  A slot is either unconstructed raw memory (`Slot.free`),
a constructed element holding a known value (`Slot.val a`), or a constructed
moved-from element whose value is unspecified (`Slot.husk`).  The `husk`
state instantiates the C++ rule that a moved-from object is valid but holds
an unspecified value (as for `std::string`); move-construction and
move-assignment transfer the source slot's content and leave the source a
husk, copies preserve content and leave the source alone.  The buffer
pointer identity is modelled by a `region : Nat` field; operations that
allocate a new region take a `fresh` argument standing for the new pointer.

Element copy constructors may throw in C++; fallible variants of the
operations take a predicate `cf : α → Bool` (`cf a = true` means copying
the value `a` throws) and return `Option`/`Except`, carrying the state an
operation leaves behind when it propagates an exception.  Element moves are
modelled as non-throwing, matching the instantiations the relocation policy
of the source selects them for.
-/

namespace AdvVec

/-- One capacity unit of a vector's buffer: unconstructed raw memory, a
constructed element with a known value, or a constructed moved-from element
(valid, unspecified value). -/
inductive Slot (α : Type) where
  | free : Slot α
  | husk : Slot α
  | val : α → Slot α
deriving DecidableEq

/-! ## RawMemory

Modelled at the region level only (`vector.h`, lines 9-91).  `buffer` is the
identifier of the owned region (`none` = `nullptr`); `capacity` is the
element capacity. -/

structure RawMemory where
  buffer : Option Nat
  capacity : Nat
deriving DecidableEq

/-- Deallocations performed by the destructor `~RawMemory` (line 19):
`operator delete` on the owned region; a null pointer frees nothing. -/
def RawMemory.destroyFrees (r : RawMemory) : List Nat :=
  r.buffer.toList

/-- Move constructor (lines 26-31): the new object starts null/0 and swaps
with `other`.  Result: (the new object, `other` afterwards). -/
def RawMemory.moveCtorR (other : RawMemory) : RawMemory × RawMemory :=
  (⟨other.buffer, other.capacity⟩, ⟨none, 0⟩)

/-- Move assignment, `this != &rhs` branch (lines 33-40): `Deallocate(buffer_)`
(recorded as the list of freed regions), then `capacity_ = 0`, then
`Swap(rhs)`.  `buffer_` is not nulled between the deallocation and the swap,
so `rhs` receives the old (already freed) `buffer_` value.
Result: (regions freed now, `this` afterwards, `rhs` afterwards). -/
def RawMemory.moveAssignR (dst src : RawMemory) : List Nat × RawMemory × RawMemory :=
  (dst.buffer.toList, ⟨src.buffer, src.capacity⟩, ⟨dst.buffer, 0⟩)

/-! ## Vector -/

/-- The vector (`vector.h`, lines 93-318): `region` is the identity of the
`RawMemory` buffer pointer, `buf` the buffer's slots (its length is the
capacity), `size` the number of constructed elements at the front. -/
structure Vector (α : Type) where
  region : Nat
  buf : List (Slot α)
  size : Nat
deriving DecidableEq

/-- Default constructor (line 96): size 0, capacity 0, null buffer. -/
def Vector.mkEmpty (α : Type) : Vector α := ⟨0, [], 0⟩

/-- Sized constructor (lines 98-103): allocate capacity `size`, then
`uninitialized_value_construct_n`, filling every slot with the
default-constructed value `d`. -/
def Vector.sizedCtor (d : α) (fresh n : Nat) : Vector α :=
  ⟨fresh, List.replicate n (Slot.val d), n⟩

/-- `Vector::Swap` (lines 179-182): exchanges the two objects' buffers and
sizes.  Result: (`this` afterwards, `other` afterwards). -/
def Vector.swapV (a b : Vector α) : Vector α × Vector α :=
  (⟨b.region, b.buf, b.size⟩, ⟨a.region, a.buf, a.size⟩)

/-- Move constructor (lines 112-114): the new object starts default
(size 0 / capacity 0) and swaps with `other`.
Result: (the new object, `other` afterwards). -/
def Vector.moveCtorV (other : Vector α) : Vector α × Vector α :=
  Vector.swapV ⟨0, [], 0⟩ other

/-- Move assignment, `this != &rhs` branch (lines 163-168): `Swap(rhs)`.
Result: (`this` afterwards, `rhs` afterwards). -/
def Vector.moveAssignV (dst src : Vector α) : Vector α × Vector α :=
  Vector.swapV dst src

/-! ### Element-level primitives -/

/-- One backward-iteration step shared by the in-place `Emplace` path: slot
`i+1` receives the content of slot `i` (by move construction or move
assignment; either way the destination ends with the source slot's content)
and slot `i` becomes a moved-from husk. -/
def shiftOne (buf : List (Slot α)) (i : Nat) : List (Slot α) :=
  (buf.set (i + 1) (buf.getD i Slot.free)).set i Slot.husk

/-- `std::move_backward(begin() + p, begin() + (p + k), begin() + (p + k + 1))`
(line 266): move-assigns slots `[p, p+k)` one position up, iterating from
the highest source index `p + k - 1` down to `p`; each moved-from source
slot becomes a husk. -/
def moveBackRange (buf : List (Slot α)) (p : Nat) : Nat → List (Slot α)
  | 0 => buf
  | k + 1 => moveBackRange (shiftOne buf (p + k)) p k

/-- `std::move(begin() + (p+1), begin() + (p+1+k), begin() + p)` (line 284):
move-assigns `k` slots one position down, iterating forward; each moved-from
source slot becomes a husk. -/
def moveForward (buf : List (Slot α)) (p : Nat) : Nat → List (Slot α)
  | 0 => buf
  | k + 1 =>
      moveForward ((buf.set p (buf.getD (p + 1) Slot.free)).set (p + 1) Slot.husk) (p + 1) k

/-- Destination effect of `std::uninitialized_move_n(src + a, n, dst + b)`
(lines 199, 301-302): constructs `dst[b+j]` from `src[a+j]` for `j < n`,
each destination slot receiving the source slot's content.  (The source
slots become husks, but every caller destroys the whole source buffer right
afterwards, so their state is not tracked here.) -/
def uninitMoveN (src : List (Slot α)) : Nat → Nat → List (Slot α) → Nat → List (Slot α)
  | _, 0, dst, _ => dst
  | a, n + 1, dst, b => uninitMoveN src (a + 1) n (dst.set b (src.getD a Slot.free)) (b + 1)

/-- Writes the slot state `s` into `n` consecutive slots starting at `a`:
models `std::destroy_n(buf + a, n)` (with `s = Slot.free`) and
`std::uninitialized_value_construct_n(buf + a, n)` (with `s` the
default-constructed value). -/
def setRange (s : Slot α) : List (Slot α) → Nat → Nat → List (Slot α)
  | buf, _, 0 => buf
  | buf, a, n + 1 => setRange s (buf.set a s) (a + 1) n

/-! ### Vector operations -/

/-- `Vector::Reserve` (lines 192-206): no-op when `new_capacity` does not
exceed the capacity; otherwise allocate a new buffer of capacity
`new_capacity`, relocate the `size` constructed elements into its front
(by `uninitialized_move_n` or `uninitialized_copy_n`, both of which place
the old contents), destroy the old elements, and swap the buffers. -/
def Vector.Reserve (fresh : Nat) (v : Vector α) (new_capacity : Nat) : Vector α :=
  if new_capacity ≤ v.buf.length then v
  else ⟨fresh, uninitMoveN v.buf 0 v.size (List.replicate new_capacity Slot.free) 0, v.size⟩

/-- `Vector::Resize` (lines 208-216): shrinking destroys the slots
`[new_size, size)`; growing reserves and value-constructs `[size, new_size)`
with the default value `d`; either way `size` becomes `new_size`. -/
def Vector.Resize (d : α) (fresh : Nat) (v : Vector α) (new_size : Nat) : Vector α :=
  if new_size ≤ v.size then
    ⟨v.region, setRange Slot.free v.buf new_size (v.size - new_size), new_size⟩
  else
    let r := Vector.Reserve fresh v new_size
    ⟨r.region, setRange (Slot.val d) r.buf v.size (new_size - v.size), new_size⟩

/-- `Vector::PopBack` (lines 218-223): when non-empty, decrement `size` and
destroy the element at the new `size`; no-op when empty. -/
def Vector.PopBack (v : Vector α) : Vector α :=
  if 0 < v.size then ⟨v.region, v.buf.set (v.size - 1) Slot.free, v.size - 1⟩ else v

/-- `Vector::Emplace` (lines 246-279) with non-throwing element moves, at
position `p ≤ size`, inserting the value `x`.

Full buffer (`size == Capacity()`): allocate capacity `size == 0 ? 1 :
size * 2`, construct `x` at slot `p` of the new buffer first, then relocate
(`ReAllocate`, lines 299-313) the old slots `[0, p)` to `[0, p)` and
`[p, size)` to `[p+1, size+1)`, destroy the old elements and swap buffers.

Spare capacity: when non-empty, move-construct the last element into slot
`size` (line 264), `move_backward` the slots `[p, size)` one position up
(line 266), destroy slot `p` (line 272); finally construct `x` at slot `p`
(line 274).  `size` increments. -/
def Vector.Emplace (fresh : Nat) (v : Vector α) (p : Nat) (x : α) : Vector α :=
  if v.size = v.buf.length then
    let cap2 := if v.size = 0 then 1 else v.size * 2
    let nb0 := (List.replicate cap2 Slot.free).set p (Slot.val x)
    let nb1 := uninitMoveN v.buf 0 p nb0 0
    let nb2 := uninitMoveN v.buf p (v.size - p) nb1 (p + 1)
    ⟨fresh, nb2, v.size + 1⟩
  else if v.size = 0 then
    ⟨v.region, v.buf.set p (Slot.val x), v.size + 1⟩
  else
    let b1 := shiftOne v.buf (v.size - 1)
    let b2 := moveBackRange b1 p (v.size - p)
    let b3 := (b2.set p Slot.free).set p (Slot.val x)
    ⟨v.region, b3, v.size + 1⟩

/-- `Vector::Insert` (lines 289-296): forwards to `Emplace`. -/
def Vector.Insert (fresh : Nat) (v : Vector α) (p : Nat) (x : α) : Vector α :=
  Vector.Emplace fresh v p x

/-- `Vector::PushBack` via `EmplaceBack` (lines 228-244): `Emplace(end(), x)`,
i.e. `Emplace` at position `size`. -/
def Vector.PushBack (fresh : Nat) (v : Vector α) (x : α) : Vector α :=
  Vector.Emplace fresh v v.size x

/-- `Vector::Erase` (lines 281-287) at position `p < size`: move-assign the
slots `(p, size)` one position down, then `PopBack`. -/
def Vector.Erase (v : Vector α) (p : Nat) : Vector α :=
  Vector.PopBack ⟨v.region, moveForward v.buf p (v.size - (p + 1)), v.size⟩

end AdvVec

/-! ## Claim C1: RawMemory move transfer -/

/-- C1, evaluation at the failing input.  Move-assigning a `RawMemory` that
holds region 2 / capacity 3 into a `RawMemory` that holds region 1 /
capacity 2 frees region 1 immediately, yet leaves the source holding region
1 (not null) at capacity 0; destroying both objects afterwards then frees
region 1 a second time.  This contradicts the claim that move-assignment
leaves the source with a null region and that destroying both instances
never releases the same region twice. -/
theorem rawMemory_moveAssign_double_free :
    (AdvVec.RawMemory.moveAssignR ⟨some 1, 2⟩ ⟨some 2, 3⟩).2.2.buffer = some 1 ∧
    (AdvVec.RawMemory.moveAssignR ⟨some 1, 2⟩ ⟨some 2, 3⟩).2.2.buffer ≠ none ∧
    ((AdvVec.RawMemory.moveAssignR ⟨some 1, 2⟩ ⟨some 2, 3⟩).1 ++
      (AdvVec.RawMemory.moveAssignR ⟨some 1, 2⟩ ⟨some 2, 3⟩).2.1.destroyFrees ++
      (AdvVec.RawMemory.moveAssignR ⟨some 1, 2⟩ ⟨some 2, 3⟩).2.2.destroyFrees).count 1 = 2 := by
  decide

/-! ## Claim C5: Vector move semantics -/

/-- C5, counterexample.  Move-assigning a vector of size 2 into a vector of
size 1 leaves the source at size 1 and capacity 1 (it received the
destination's old state by swap), refuting the claim that every move leaves
the source at size 0 and capacity 0. -/
theorem vector_moveAssign_source_not_empty :
    ¬ ((AdvVec.Vector.moveAssignV (⟨1, [AdvVec.Slot.val 5], 1⟩ : AdvVec.Vector Nat)
          ⟨2, [AdvVec.Slot.val 7, AdvVec.Slot.val 8], 2⟩).2.size = 0 ∧
       (AdvVec.Vector.moveAssignV (⟨1, [AdvVec.Slot.val 5], 1⟩ : AdvVec.Vector Nat)
          ⟨2, [AdvVec.Slot.val 7, AdvVec.Slot.val 8], 2⟩).2.buf.length = 0) := by
  decide

/-- C5, amended.  Move construction gives the destination exactly the
source's prior region, size, capacity and element values and leaves the
source at size 0 / capacity 0; move assignment swaps the two objects'
entire states, so the destination receives the source's prior state and the
source receives the destination's prior state (which is size 0 / capacity 0
only when the destination was empty). -/
theorem vector_move_transfers_state {α : Type} (dst src : AdvVec.Vector α) :
    AdvVec.Vector.moveCtorV src = (src, ⟨0, [], 0⟩) ∧
    AdvVec.Vector.moveAssignV dst src = (src, dst) := by
  constructor
  · simp [AdvVec.Vector.moveCtorV, AdvVec.Vector.swapV]
  · simp [AdvVec.Vector.moveAssignV, AdvVec.Vector.swapV]

/-! ## Helper lemmas about the element-level primitives -/

namespace AdvVec

theorem shiftOne_length {α : Type} (buf : List (Slot α)) (i : Nat) :
    (shiftOne buf i).length = buf.length := by
  simp [shiftOne]

theorem moveBackRange_length {α : Type} :
    ∀ (k : Nat) (buf : List (Slot α)) (p : Nat),
      (moveBackRange buf p k).length = buf.length
  | 0, _, _ => rfl
  | k + 1, buf, p => by
      rw [moveBackRange, moveBackRange_length k, shiftOne_length]

theorem moveForward_length {α : Type} :
    ∀ (k : Nat) (buf : List (Slot α)) (p : Nat),
      (moveForward buf p k).length = buf.length
  | 0, _, _ => rfl
  | k + 1, buf, p => by
      rw [moveForward, moveForward_length k]
      simp

end AdvVec

/-! ## Claim C2: insert into spare capacity -/

/-- C2, evaluation at the failing input.  The vector holds the values 10, 20
with capacity 3 (size < capacity), and 99 is inserted at position 0.  The
claim requires the result 99, 10, 20; the spare-capacity path of `Emplace`
instead move-constructs 20 into slot 2 and then `move_backward`s the range
`[0, 2)` (one slot too far) over it, so slot 2 ends as the moved-from husk
of slot 1 and the value 20 is lost. -/
theorem emplace_spare_path_loses_last_element :
    AdvVec.Vector.Insert 9 (⟨0, [AdvVec.Slot.val 10, AdvVec.Slot.val 20, AdvVec.Slot.free], 2⟩ :
        AdvVec.Vector Nat) 0 99 =
      ⟨0, [AdvVec.Slot.val 99, AdvVec.Slot.val 10, AdvVec.Slot.husk], 3⟩ := by
  decide

/-! ## Claim C4: insert then erase -/

/-- C4, evaluation at the failing input.  Starting from the vector holding
10, 20 with capacity 3, inserting 99 at position 0 and erasing position 0
yields a vector whose element at index 1 is a moved-from husk rather than
20: the original sequence is not restored (the insert already lost the
value 20, as in the C2 analysis). -/
theorem insert_then_erase_not_identity :
    AdvVec.Vector.Erase
        (AdvVec.Vector.Insert 9 (⟨0, [AdvVec.Slot.val 10, AdvVec.Slot.val 20, AdvVec.Slot.free], 2⟩ :
            AdvVec.Vector Nat) 0 99) 0 =
      ⟨0, [AdvVec.Slot.val 10, AdvVec.Slot.husk, AdvVec.Slot.free], 2⟩ ∧
    AdvVec.Vector.Erase
        (AdvVec.Vector.Insert 9 (⟨0, [AdvVec.Slot.val 10, AdvVec.Slot.val 20, AdvVec.Slot.free], 2⟩ :
            AdvVec.Vector Nat) 0 99) 0 ≠
      ⟨0, [AdvVec.Slot.val 10, AdvVec.Slot.val 20, AdvVec.Slot.free], 2⟩ := by
  decide

/-! ## Claim C9: push_back growth and order -/

/-- C9, evaluation at the failing input.  Pushing 1, 2, 3, 4 onto an empty
vector: the first three pushes take the full-buffer path (capacities 1, 2, 4,
matching `max(1, 2 * size)`), but the fourth push (size 3 < capacity 4) takes
the spare-capacity path, which move-constructs the element 3 into slot 3,
destroys that slot again, and constructs 4 there, leaving slot 2 a moved-from
husk.  The resulting sequence is 1, 2, husk, 4 — not the insertion order
1, 2, 3, 4 required by the claim. -/
theorem pushBack_sequence_breaks_order :
    AdvVec.Vector.PushBack 4
        (AdvVec.Vector.PushBack 3
          (AdvVec.Vector.PushBack 2
            (AdvVec.Vector.PushBack 1 (AdvVec.Vector.mkEmpty Nat) 1) 2) 3) 4 =
      ⟨3, [AdvVec.Slot.val 1, AdvVec.Slot.val 2, AdvVec.Slot.husk, AdvVec.Slot.val 4], 4⟩ := by
  decide

/-! ## Claim C10: erase and pop_back never reallocate -/

/-- C10.  `Erase` and `PopBack` preserve both the capacity (the buffer's
slot count) and the buffer identity (no reallocation) of any vector. -/
theorem erase_popBack_preserve_capacity {α : Type} (v : AdvVec.Vector α) (p : Nat) :
    ((AdvVec.Vector.Erase v p).buf.length = v.buf.length ∧
      (AdvVec.Vector.Erase v p).region = v.region) ∧
    ((AdvVec.Vector.PopBack v).buf.length = v.buf.length ∧
      (AdvVec.Vector.PopBack v).region = v.region) := by
  constructor
  · unfold AdvVec.Vector.Erase AdvVec.Vector.PopBack
    constructor
    · by_cases h : 0 < v.size <;> simp [h, AdvVec.moveForward_length]
    · by_cases h : 0 < v.size <;> simp [h]
  · unfold AdvVec.Vector.PopBack
    constructor
    · by_cases h : 0 < v.size <;> simp [h]
    · by_cases h : 0 < v.size <;> simp [h]

namespace AdvVec

theorem uninitMoveN_length {α : Type} :
    ∀ (n a b : Nat) (src dst : List (Slot α)),
      (uninitMoveN src a n dst b).length = dst.length
  | 0, _, _, _, _ => rfl
  | n + 1, a, b, src, dst => by
      rw [uninitMoveN, uninitMoveN_length n]
      simp

theorem uninitMoveN_getD_lt {α : Type} :
    ∀ (n a b j : Nat) (src dst : List (Slot α)), j < b →
      (uninitMoveN src a n dst b).getD j Slot.free = dst.getD j Slot.free
  | 0, _, _, _, _, _, _ => rfl
  | n + 1, a, b, j, src, dst, h => by
      rw [uninitMoveN, uninitMoveN_getD_lt n _ _ _ _ _ (Nat.lt_succ_of_lt h)]
      simp [List.getD_eq_getElem?_getD, List.getElem?_set_ne (Nat.ne_of_gt h)]

theorem uninitMoveN_getD_ge {α : Type} :
    ∀ (n a b j : Nat) (src dst : List (Slot α)), b + n ≤ j →
      (uninitMoveN src a n dst b).getD j Slot.free = dst.getD j Slot.free
  | 0, _, _, _, _, _, _ => rfl
  | n + 1, a, b, j, src, dst, h => by
      rw [uninitMoveN, uninitMoveN_getD_ge n _ _ _ _ _ (by omega)]
      have hbj : b ≠ j := by omega
      simp [List.getD_eq_getElem?_getD, List.getElem?_set_ne hbj]

theorem uninitMoveN_getD_in {α : Type} :
    ∀ (n a b j : Nat) (src dst : List (Slot α)), j < n → b + n ≤ dst.length →
      (uninitMoveN src a n dst b).getD (b + j) Slot.free = src.getD (a + j) Slot.free
  | 0, _, _, j, _, _, hj, _ => absurd hj (Nat.not_lt_zero j)
  | n + 1, a, b, j, src, dst, hj, hlen => by
      rw [uninitMoveN]
      rcases Nat.eq_zero_or_pos j with hj0 | hjpos
      · subst hj0
        rw [uninitMoveN_getD_lt n (a + 1) (b + 1) (b + 0) src _ (by omega)]
        have hb : b < dst.length := by omega
        simp [List.getD_eq_getElem?_getD, List.getElem?_set_self', hb]
      · obtain ⟨j0, rfl⟩ : ∃ j0, j = j0 + 1 := ⟨j - 1, by omega⟩
        have := uninitMoveN_getD_in n (a + 1) (b + 1) j0 src (dst.set b (src.getD a Slot.free))
          (by omega) (by simp; omega)
        rw [show b + (j0 + 1) = b + 1 + j0 by omega, this,
          show a + 1 + j0 = a + (j0 + 1) by omega]

theorem setRange_length {α : Type} (s : Slot α) :
    ∀ (n a : Nat) (buf : List (Slot α)), (setRange s buf a n).length = buf.length
  | 0, _, _ => rfl
  | n + 1, a, buf => by
      rw [setRange, setRange_length s n]
      simp

theorem setRange_getD_out {α : Type} (s : Slot α) :
    ∀ (n a j : Nat) (buf : List (Slot α)), j < a ∨ a + n ≤ j →
      (setRange s buf a n).getD j Slot.free = buf.getD j Slot.free
  | 0, _, _, _, _ => rfl
  | n + 1, a, j, buf, h => by
      have haj : a ≠ j := by omega
      rw [setRange, setRange_getD_out s n _ _ _ (by omega)]
      simp [List.getD_eq_getElem?_getD, List.getElem?_set_ne haj]

theorem setRange_getD_in {α : Type} (s : Slot α) :
    ∀ (n a j : Nat) (buf : List (Slot α)), a ≤ j → j < a + n → j < buf.length →
      (setRange s buf a n).getD j Slot.free = s
  | 0, a, j, _, h1, h2, _ => absurd (Nat.lt_of_le_of_lt h1 h2) (by omega)
  | n + 1, a, j, buf, h1, h2, hlen => by
      rw [setRange]
      rcases Nat.eq_or_lt_of_le h1 with rfl | hlt
      · rw [setRange_getD_out s n _ _ _ (Or.inl (by omega))]
        simp [List.getD_eq_getElem?_getD, List.getElem?_set_self', hlen]
      · exact setRange_getD_in s n (a + 1) j _ hlt (by omega) (by simpa using hlen)

end AdvVec

/-! ## Claim C7: Reserve -/

/-- C7.  For a well-formed vector (`size ≤ capacity`): `Reserve` with a
requested capacity at most the current capacity is the identity (region,
buffer and size all unchanged), and `Reserve` with a larger requested
capacity yields capacity exactly `n`, the same size, and the same element
values in every constructed slot. -/
theorem reserve_spec {α : Type} (fresh n : Nat) (v : AdvVec.Vector α)
    (h : v.size ≤ v.buf.length) :
    (n ≤ v.buf.length → AdvVec.Vector.Reserve fresh v n = v) ∧
    (v.buf.length < n →
      (AdvVec.Vector.Reserve fresh v n).buf.length = n ∧
      (AdvVec.Vector.Reserve fresh v n).size = v.size ∧
      ∀ j < v.size,
        (AdvVec.Vector.Reserve fresh v n).buf.getD j AdvVec.Slot.free =
          v.buf.getD j AdvVec.Slot.free) := by
  constructor
  · intro hle
    simp [AdvVec.Vector.Reserve, hle]
  · intro hgt
    have hnot : ¬ n ≤ v.buf.length := by omega
    refine ⟨?_, ?_, ?_⟩
    · simp [AdvVec.Vector.Reserve, hnot, AdvVec.uninitMoveN_length]
    · simp [AdvVec.Vector.Reserve, hnot]
    · intro j hj
      have hin := AdvVec.uninitMoveN_getD_in v.size 0 0 j v.buf
        (List.replicate n (AdvVec.Slot.free (α := α))) hj (by simp; omega)
      simpa [AdvVec.Vector.Reserve, hnot] using hin

/-- C7, witness at a concrete input: the vector holding the value 1 with
capacity 2.  Reserving 1 slot is the identity; reserving 3 slots yields
capacity 3, size 1, and keeps the value 1 at index 0. -/
theorem reserve_spec_witness :
    AdvVec.Vector.Reserve 5 (⟨0, [AdvVec.Slot.val 1, AdvVec.Slot.free], 1⟩ :
        AdvVec.Vector Nat) 1 =
      ⟨0, [AdvVec.Slot.val 1, AdvVec.Slot.free], 1⟩ ∧
    (AdvVec.Vector.Reserve 5 (⟨0, [AdvVec.Slot.val 1, AdvVec.Slot.free], 1⟩ :
        AdvVec.Vector Nat) 3).buf.length = 3 ∧
    (AdvVec.Vector.Reserve 5 (⟨0, [AdvVec.Slot.val 1, AdvVec.Slot.free], 1⟩ :
        AdvVec.Vector Nat) 3).buf.getD 0 AdvVec.Slot.free = AdvVec.Slot.val 1 := by
  refine ⟨?_, ?_, ?_⟩
  · exact (reserve_spec 5 1 ⟨0, [AdvVec.Slot.val 1, AdvVec.Slot.free], 1⟩ (by decide)).1
      (by decide)
  · exact ((reserve_spec 5 3 ⟨0, [AdvVec.Slot.val 1, AdvVec.Slot.free], 1⟩ (by decide)).2
      (by decide)).1
  · exact (((reserve_spec 5 3 ⟨0, [AdvVec.Slot.val 1, AdvVec.Slot.free], 1⟩ (by decide)).2
      (by decide)).2.2) 0 (by decide)

namespace AdvVec

/-! ### Fallible element copies

`cf a = true` models a copy constructor / copy assignment that throws when
copying the value `a`. -/

/-- Effect of `std::uninitialized_copy_n(src + a, n, dst + b)` (lines 109,
155, 201, 305-306) with fallible copies: constructs `dst[b+j]` as a copy of
`src[a+j]` for `j < n`.  `none` models a thrown exception; per the standard,
the call then destroys the elements it itself constructed, so the
destination range is restored to the state the caller passed in. -/
def uninitCopyN (cf : α → Bool) (src : List (Slot α)) :
    Nat → Nat → List (Slot α) → Nat → Option (List (Slot α))
  | _, 0, dst, _ => some dst
  | a, n + 1, dst, b =>
      match src.getD a Slot.free with
      | Slot.val y =>
          if cf y then none
          else uninitCopyN cf src (a + 1) n (dst.set b (Slot.val y)) (b + 1)
      | Slot.husk => uninitCopyN cf src (a + 1) n (dst.set b Slot.husk) (b + 1)
      | Slot.free => none

/-- `std::copy(src, src + (i+n), dst)` restricted to positions `[i, i+n)`
(lines 151, 154): copy-assigns `src[j]` onto the existing element `dst[j]`
in increasing order.  On a throw the error value carries the destination as
left behind: the slots already assigned keep their new contents. -/
def stdCopy (cf : α → Bool) (src : List (Slot α)) :
    Nat → Nat → List (Slot α) → Except (List (Slot α)) (List (Slot α))
  | _, 0, dst => Except.ok dst
  | i, n + 1, dst =>
      match src.getD i Slot.free with
      | Slot.val y =>
          if cf y then Except.error dst
          else stdCopy cf src (i + 1) n (dst.set i (Slot.val y))
      | Slot.husk => stdCopy cf src (i + 1) n (dst.set i Slot.husk)
      | Slot.free => Except.error dst

/-- `Vector::ReAllocate` (lines 299-313), copy-relocation branch, acting on
a new buffer `newbuf` whose slot `p` already holds the pre-constructed new
element: copy `old[0, p)` to `new[0, p)`, then `old[p, size)` to
`new[p+1, size+1)`.  On a throw, each `uninitialized_copy_n` call destroys
only the elements it itself constructed, and the `catch` block destroys
only `new[p]`; the error value carries the new buffer's remaining state
(slots copied by a completed first call are still constructed). -/
def reAllocateCopy (cf : α → Bool) (old : List (Slot α)) (size p : Nat)
    (newbuf : List (Slot α)) : Except (List (Slot α)) (List (Slot α)) :=
  match uninitCopyN cf old 0 p newbuf 0 with
  | none => Except.error (newbuf.set p Slot.free)
  | some nb1 =>
      match uninitCopyN cf old p (size - p) nb1 (p + 1) with
      | none => Except.error (nb1.set p Slot.free)
      | some nb2 => Except.ok nb2

/-- `Vector::Emplace` (lines 253-260), full-buffer path, under the
copy-relocation policy with fallible copies: allocate the new buffer,
construct `x` at its slot `p`, then `ReAllocate`.  On success the old
elements are destroyed and the buffers swapped.  On a throw the vector is
left unchanged; the error value also carries the final state of the new
buffer's slots, which the `RawMemory` destructor then deallocates without
destroying any still-constructed element. -/
def Vector.emplaceGrowCopy (cf : α → Bool) (fresh : Nat) (v : Vector α) (p : Nat)
    (x : α) : Except (Vector α × List (Slot α)) (Vector α) :=
  let cap2 := if v.size = 0 then 1 else v.size * 2
  let nb0 := (List.replicate cap2 Slot.free).set p (Slot.val x)
  match reAllocateCopy cf v.buf v.size p nb0 with
  | Except.error nb => Except.error (v, nb)
  | Except.ok nb => Except.ok ⟨fresh, nb, v.size + 1⟩

/-- Copy constructor (lines 105-110) with fallible copies: allocate capacity
`src.size` and copy-construct every element of `src`.  `none` models a
thrown exception, after which every constructed element is destroyed and
the buffer released, so no new object is observed. -/
def Vector.copyCtorF (cf : α → Bool) (fresh : Nat) (src : Vector α) : Option (Vector α) :=
  (uninitCopyN cf src.buf 0 src.size (List.replicate src.size Slot.free) 0).map
    fun b => ⟨fresh, b, src.size⟩

/-- Copy assignment, `this != &rhs` branch (lines 142-161), with fallible
copies.  `rhs.size > capacity`: copy-and-swap (a throw while building the
temporary leaves `this` untouched).  Otherwise copy-assign the first
`min(size, rhs.size)` elements, then destroy the trailing elements
(shrinking) or copy-construct the missing ones (growing), and set `size`
to `rhs.size`.  The error value carries the state `this` is left in. -/
def Vector.copyAssignF (cf : α → Bool) (fresh : Nat) (dst rhs : Vector α) :
    Except (Vector α) (Vector α) :=
  if dst.buf.length < rhs.size then
    match Vector.copyCtorF cf fresh rhs with
    | none => Except.error dst
    | some c => Except.ok c
  else if rhs.size < dst.size then
    match stdCopy cf rhs.buf 0 rhs.size dst.buf with
    | Except.error b => Except.error ⟨dst.region, b, dst.size⟩
    | Except.ok b1 =>
        Except.ok ⟨dst.region, setRange Slot.free b1 rhs.size (dst.size - rhs.size), rhs.size⟩
  else
    match stdCopy cf rhs.buf 0 dst.size dst.buf with
    | Except.error b => Except.error ⟨dst.region, b, dst.size⟩
    | Except.ok b1 =>
        match uninitCopyN cf rhs.buf dst.size (rhs.size - dst.size) b1 dst.size with
        | none => Except.error ⟨dst.region, b1, dst.size⟩
        | some b2 => Except.ok ⟨dst.region, b2, rhs.size⟩

end AdvVec

/-! ## Claim C3: unwinding of a failed copy relocation -/

/-- C3, evaluation at the failing input.  The full vector holds 1, 2
(size = capacity = 2); `Emplace` at position 1 under the copy-relocation
policy, where copying the value 2 throws.  The first
`uninitialized_copy_n` completes, constructing a copy of 1 at slot 0 of the
new buffer; the second throws, and the `catch` block destroys only the
pre-constructed element at slot 1.  The error propagates with the vector
untouched, but slot 0 of the new buffer is still constructed when the
buffer is released: the copy of 1 is leaked, refuting the claim that every
constructed slot of the new buffer is destroyed. -/
theorem reallocate_copy_failure_leaks_slot :
    AdvVec.Vector.emplaceGrowCopy (fun a => a == 2) 7
        (⟨0, [AdvVec.Slot.val 1, AdvVec.Slot.val 2], 2⟩ : AdvVec.Vector Nat) 1 9 =
      Except.error (⟨0, [AdvVec.Slot.val 1, AdvVec.Slot.val 2], 2⟩,
        [AdvVec.Slot.val 1, AdvVec.Slot.free, AdvVec.Slot.free, AdvVec.Slot.free]) ∧
    ∃ j, ∃ h : j < 4,
      [AdvVec.Slot.val 1, AdvVec.Slot.free, AdvVec.Slot.free,
        AdvVec.Slot.free].get ⟨j, h⟩ ≠ AdvVec.Slot.free := by
  constructor
  · rfl
  · exact ⟨0, by decide, by decide⟩

namespace AdvVec

theorem getD_set_self {α : Type} (l : List (Slot α)) (i : Nat) (s : Slot α)
    (h : i < l.length) : (l.set i s).getD i Slot.free = s := by
  simp [List.getD_eq_getElem?_getD, List.getElem?_set_self', h]

theorem getD_set_other {α : Type} (l : List (Slot α)) (i j : Nat) (s : Slot α)
    (h : i ≠ j) : (l.set i s).getD j Slot.free = l.getD j Slot.free := by
  simp [List.getD_eq_getElem?_getD, List.getElem?_set_ne h]

theorem uninitCopyN_some_spec {α : Type} (cf : α → Bool) :
    ∀ (n a b : Nat) (src dst out : List (Slot α)),
      uninitCopyN cf src a n dst b = some out →
      out.length = dst.length ∧
      (∀ j, j < b ∨ b + n ≤ j → out.getD j Slot.free = dst.getD j Slot.free) ∧
      (∀ j, j < n → b + n ≤ dst.length →
        out.getD (b + j) Slot.free = src.getD (a + j) Slot.free ∧
        src.getD (a + j) Slot.free ≠ Slot.free)
  | 0, a, b, src, dst, out, h => by
      simp only [uninitCopyN, Option.some.injEq] at h
      subst h
      exact ⟨rfl, fun j _ => rfl, fun j hj _ => absurd hj (Nat.not_lt_zero j)⟩
  | n + 1, a, b, src, dst, out, h => by
      rw [uninitCopyN] at h
      split at h
      next y hs =>
        by_cases hcf : cf y
        · rw [if_pos hcf] at h; exact absurd h (by simp)
        · rw [if_neg hcf] at h
          have ih := uninitCopyN_some_spec cf n (a + 1) (b + 1) src _ out h
          refine ⟨by simpa using ih.1, ?_, ?_⟩
          · intro j hj
            rw [ih.2.1 j (by omega), getD_set_other dst b j _ (by omega)]
          · intro j hj hlen
            have hb : b < dst.length := by omega
            rcases Nat.eq_zero_or_pos j with rfl | hjpos
            · simp only [Nat.add_zero]
              rw [ih.2.1 b (by omega), getD_set_self dst b _ hb, hs]
              exact ⟨rfl, by simp⟩
            · obtain ⟨j0, rfl⟩ : ∃ j0, j = j0 + 1 := ⟨j - 1, by omega⟩
              have hrec := ih.2.2 j0 (by omega) (by simp; omega)
              rw [show b + (j0 + 1) = b + 1 + j0 by omega,
                show a + (j0 + 1) = a + 1 + j0 by omega]
              exact hrec
      next hs =>
        have ih := uninitCopyN_some_spec cf n (a + 1) (b + 1) src _ out h
        refine ⟨by simpa using ih.1, ?_, ?_⟩
        · intro j hj
          rw [ih.2.1 j (by omega), getD_set_other dst b j _ (by omega)]
        · intro j hj hlen
          have hb : b < dst.length := by omega
          rcases Nat.eq_zero_or_pos j with rfl | hjpos
          · simp only [Nat.add_zero]
            rw [ih.2.1 b (by omega), getD_set_self dst b _ hb, hs]
            exact ⟨rfl, by simp⟩
          · obtain ⟨j0, rfl⟩ : ∃ j0, j = j0 + 1 := ⟨j - 1, by omega⟩
            have hrec := ih.2.2 j0 (by omega) (by simp; omega)
            rw [show b + (j0 + 1) = b + 1 + j0 by omega,
              show a + (j0 + 1) = a + 1 + j0 by omega]
            exact hrec
      next hs => exact absurd h (by simp)

theorem stdCopy_ok_spec {α : Type} (cf : α → Bool) :
    ∀ (n i : Nat) (src dst out : List (Slot α)),
      stdCopy cf src i n dst = Except.ok out →
      out.length = dst.length ∧
      (∀ j, j < i ∨ i + n ≤ j → out.getD j Slot.free = dst.getD j Slot.free) ∧
      (∀ j, i ≤ j → j < i + n → j < dst.length →
        out.getD j Slot.free = src.getD j Slot.free ∧
        src.getD j Slot.free ≠ Slot.free)
  | 0, i, src, dst, out, h => by
      simp only [stdCopy, Except.ok.injEq] at h
      subst h
      refine ⟨rfl, fun j _ => rfl, ?_⟩
      intro j h1 h2 _
      exact absurd h2 (by omega)
  | n + 1, i, src, dst, out, h => by
      rw [stdCopy] at h
      split at h
      next y hs =>
        by_cases hcf : cf y
        · rw [if_pos hcf] at h; exact absurd h (by simp)
        · rw [if_neg hcf] at h
          have ih := stdCopy_ok_spec cf n (i + 1) src _ out h
          refine ⟨by simpa using ih.1, ?_, ?_⟩
          · intro j hj
            rw [ih.2.1 j (by omega), getD_set_other dst i j _ (by omega)]
          · intro j hj1 hj2 hlen
            rcases Nat.eq_or_lt_of_le hj1 with heq | hlt
            · have hji : j = i := heq.symm
              have hilen : i < dst.length := by omega
              rw [ih.2.1 j (by omega), hji, getD_set_self dst i _ hilen, hs]
              exact ⟨rfl, by simp⟩
            · exact ih.2.2 j hlt (by omega) (by simpa using hlen)
      next hs =>
        have ih := stdCopy_ok_spec cf n (i + 1) src _ out h
        refine ⟨by simpa using ih.1, ?_, ?_⟩
        · intro j hj
          rw [ih.2.1 j (by omega), getD_set_other dst i j _ (by omega)]
        · intro j hj1 hj2 hlen
          rcases Nat.eq_or_lt_of_le hj1 with heq | hlt
          · have hji : j = i := heq.symm
            have hilen : i < dst.length := by omega
            rw [ih.2.1 j (by omega), hji, getD_set_self dst i _ hilen, hs]
            exact ⟨rfl, by simp⟩
          · exact ih.2.2 j hlt (by omega) (by simpa using hlen)
      next hs => exact absurd h (by simp)

theorem stdCopy_error_spec {α : Type} (cf : α → Bool) :
    ∀ (n i : Nat) (src dst e : List (Slot α)),
      stdCopy cf src i n dst = Except.error e →
      e.length = dst.length ∧
      ∀ j, j < dst.length →
        e.getD j Slot.free = dst.getD j Slot.free ∨
        (i ≤ j ∧ j < i + n ∧ e.getD j Slot.free ≠ Slot.free)
  | 0, i, src, dst, e, h => by
      exact absurd h (by simp [stdCopy])
  | n + 1, i, src, dst, e, h => by
      rw [stdCopy] at h
      split at h
      next y hs =>
        by_cases hcf : cf y
        · rw [if_pos hcf] at h
          simp only [Except.error.injEq] at h
          subst h
          exact ⟨rfl, fun j _ => Or.inl rfl⟩
        · rw [if_neg hcf] at h
          have ih := stdCopy_error_spec cf n (i + 1) src _ e h
          refine ⟨by simpa using ih.1, ?_⟩
          intro j hj
          rcases ih.2 j (by simpa using hj) with heq | hin
          · by_cases hij : i = j
            · subst hij
              refine Or.inr ⟨Nat.le_refl i, by omega, ?_⟩
              rw [heq, getD_set_self dst i _ hj]
              simp
            · left
              rw [heq, getD_set_other dst i j _ hij]
          · exact Or.inr ⟨by omega, by omega, hin.2.2⟩
      next hs =>
        have ih := stdCopy_error_spec cf n (i + 1) src _ e h
        refine ⟨by simpa using ih.1, ?_⟩
        intro j hj
        rcases ih.2 j (by simpa using hj) with heq | hin
        · by_cases hij : i = j
          · subst hij
            refine Or.inr ⟨Nat.le_refl i, by omega, ?_⟩
            rw [heq, getD_set_self dst i _ hj]
            simp
          · left
            rw [heq, getD_set_other dst i j _ hij]
        · exact Or.inr ⟨by omega, by omega, hin.2.2⟩
      next hs =>
        simp only [Except.error.injEq] at h
        subst h
        exact ⟨rfl, fun j _ => Or.inl rfl⟩

end AdvVec

/-! ## Claim C6: copy assignment -/

/-- C6.  For a well-formed destination (`size ≤ capacity`):

When `rhs.size` exceeds the destination's capacity, copy assignment builds a
full temporary copy and swaps it in, so any failure leaves the destination
exactly unmodified (strong guarantee), and success yields a vector of size
and capacity `rhs.size` holding copies of `rhs`'s elements.

Otherwise (on success) the first `min(size, rhs.size)` elements are
overwritten with copies of `rhs`'s elements, the trailing
`size - rhs.size` elements are destroyed when shrinking, the extra
`rhs.size - size` elements are copy-constructed when growing, the capacity
is unchanged, and the size becomes `rhs.size`. -/
theorem copy_assignment_spec {α : Type} (cf : α → Bool) (fresh : Nat)
    (dst rhs : AdvVec.Vector α) (h : dst.size ≤ dst.buf.length) :
    (dst.buf.length < rhs.size →
      (∀ e, AdvVec.Vector.copyAssignF cf fresh dst rhs = Except.error e → e = dst) ∧
      (∀ w, AdvVec.Vector.copyAssignF cf fresh dst rhs = Except.ok w →
        w.size = rhs.size ∧ w.buf.length = rhs.size ∧
        ∀ j, j < rhs.size →
          w.buf.getD j AdvVec.Slot.free = rhs.buf.getD j AdvVec.Slot.free)) ∧
    (rhs.size ≤ dst.buf.length →
      ∀ w, AdvVec.Vector.copyAssignF cf fresh dst rhs = Except.ok w →
        w.size = rhs.size ∧ w.buf.length = dst.buf.length ∧
        (∀ j, j < min dst.size rhs.size →
          w.buf.getD j AdvVec.Slot.free = rhs.buf.getD j AdvVec.Slot.free) ∧
        (∀ j, rhs.size ≤ j → j < dst.size →
          w.buf.getD j AdvVec.Slot.free = AdvVec.Slot.free) ∧
        (∀ j, dst.size ≤ j → j < rhs.size →
          w.buf.getD j AdvVec.Slot.free = rhs.buf.getD j AdvVec.Slot.free)) := by
  constructor
  · intro hgt
    constructor
    · intro e he
      unfold AdvVec.Vector.copyAssignF at he
      rw [if_pos hgt] at he
      split at he
      · simp only [Except.error.injEq] at he
        exact he.symm
      · exact absurd he (by simp)
    · intro w hw
      unfold AdvVec.Vector.copyAssignF at hw
      rw [if_pos hgt] at hw
      split at hw
      · exact absurd hw (by simp)
      next c hc =>
        simp only [Except.ok.injEq] at hw
        subst hw
        unfold AdvVec.Vector.copyCtorF at hc
        cases hu : AdvVec.uninitCopyN cf rhs.buf 0 rhs.size
            (List.replicate rhs.size AdvVec.Slot.free) 0 with
        | none => rw [hu] at hc; exact absurd hc (by simp)
        | some b =>
            rw [hu] at hc
            simp only [Option.map_some', Option.some.injEq] at hc
            subst hc
            have spec := AdvVec.uninitCopyN_some_spec cf rhs.size 0 0 rhs.buf _ b hu
            refine ⟨rfl, by simpa using spec.1, ?_⟩
            intro j hj
            have hin := (spec.2.2 j hj (by simp)).1
            simpa using hin
  · intro hle w hw
    unfold AdvVec.Vector.copyAssignF at hw
    rw [if_neg (by omega)] at hw
    by_cases hsh : rhs.size < dst.size
    · rw [if_pos hsh] at hw
      split at hw
      · exact absurd hw (by simp)
      next b1 hb1 =>
        simp only [Except.ok.injEq] at hw
        subst hw
        have spec := AdvVec.stdCopy_ok_spec cf rhs.size 0 rhs.buf dst.buf b1 hb1
        refine ⟨rfl, ?_, ?_, ?_, ?_⟩
        · simp [AdvVec.setRange_length, spec.1]
        · intro j hj
          have hjr : j < rhs.size := by omega
          have hout := AdvVec.setRange_getD_out (AdvVec.Slot.free (α := α))
            (dst.size - rhs.size) rhs.size j b1 (Or.inl hjr)
          simp only [hout]
          exact (spec.2.2 j (Nat.zero_le j) (by omega) (by omega)).1
        · intro j hj1 hj2
          exact AdvVec.setRange_getD_in (AdvVec.Slot.free (α := α))
            (dst.size - rhs.size) rhs.size j b1 hj1 (by omega) (by omega)
        · intro j hj1 hj2
          exact absurd hj2 (by omega)
    · rw [if_neg hsh] at hw
      split at hw
      · exact absurd hw (by simp)
      next b1 hb1 =>
        split at hw
        · exact absurd hw (by simp)
        next b2 hb2 =>
          simp only [Except.ok.injEq] at hw
          subst hw
          have s1 := AdvVec.stdCopy_ok_spec cf dst.size 0 rhs.buf dst.buf b1 hb1
          have s2 := AdvVec.uninitCopyN_some_spec cf (rhs.size - dst.size) dst.size
            dst.size rhs.buf b1 b2 hb2
          have hb1len : b1.length = dst.buf.length := s1.1
          refine ⟨rfl, by simp [s2.1, hb1len], ?_, ?_, ?_⟩
          · intro j hj
            have hjd : j < dst.size := by omega
            have houter := s2.2.1 j (Or.inl hjd)
            simp only [houter]
            exact (s1.2.2 j (Nat.zero_le j) (by omega) (by omega)).1
          · intro j hj1 hj2
            exact absurd hj1 (by omega)
          · intro j hj1 hj2
            obtain ⟨j0, rfl⟩ : ∃ j0, j = dst.size + j0 := ⟨j - dst.size, by omega⟩
            exact (s2.2.2 j0 (by omega) (by omega)).1

/-- C6, witness at a concrete input: assigning the size-1 vector holding 7
into a size-2, capacity-3 vector holding 1, 2 (no copy throws) takes the
shrinking in-place branch and yields the value 7 at index 0, the slot at
index 1 destroyed, and size 1. -/
theorem copy_assignment_spec_witness :
    AdvVec.Vector.copyAssignF (fun _ => false) 9
        (⟨0, [AdvVec.Slot.val 1, AdvVec.Slot.val 2, AdvVec.Slot.free], 2⟩ : AdvVec.Vector Nat)
        ⟨1, [AdvVec.Slot.val 7], 1⟩ =
      Except.ok ⟨0, [AdvVec.Slot.val 7, AdvVec.Slot.free, AdvVec.Slot.free], 1⟩ ∧
    (⟨0, [AdvVec.Slot.val 7, AdvVec.Slot.free, AdvVec.Slot.free], 1⟩ :
        AdvVec.Vector Nat).size = 1 ∧
    (⟨0, [AdvVec.Slot.val 7, AdvVec.Slot.free, AdvVec.Slot.free], 1⟩ :
        AdvVec.Vector Nat).buf.getD 0 AdvVec.Slot.free = AdvVec.Slot.val 7 := by
  have heq : AdvVec.Vector.copyAssignF (fun _ => false) 9
      (⟨0, [AdvVec.Slot.val 1, AdvVec.Slot.val 2, AdvVec.Slot.free], 2⟩ : AdvVec.Vector Nat)
      ⟨1, [AdvVec.Slot.val 7], 1⟩ =
      Except.ok ⟨0, [AdvVec.Slot.val 7, AdvVec.Slot.free, AdvVec.Slot.free], 1⟩ := rfl
  have hc := (copy_assignment_spec (fun _ => false) 9
      (⟨0, [AdvVec.Slot.val 1, AdvVec.Slot.val 2, AdvVec.Slot.free], 2⟩ : AdvVec.Vector Nat)
      ⟨1, [AdvVec.Slot.val 7], 1⟩ (by decide)).2 (by decide) _ heq
  exact ⟨heq, hc.1, (hc.2.2.1 0 (by decide)).trans (by decide)⟩

namespace AdvVec

/-! ### The vector invariant -/

/-- The slots `[0, m)` of `buf` are constructed (hold a live element, known
or moved-from) and the slots `[m, length)` are unconstructed raw memory. -/
def ConstrUpTo (buf : List (Slot α)) (m : Nat) : Prop :=
  ∀ i, i < buf.length → (buf.getD i Slot.free ≠ Slot.free ↔ i < m)

/-- The class invariant of `Vector`: `size ≤ capacity`, every slot in
`[0, size)` holds a live constructed element, and every slot in
`[size, capacity)` is unconstructed. -/
def VectorInv (v : Vector α) : Prop :=
  v.size ≤ v.buf.length ∧ ConstrUpTo v.buf v.size

theorem constrUpTo_shiftOne_extend {α : Type} {buf : List (Slot α)} {m : Nat}
    (hc : ConstrUpTo buf m) (hm : 0 < m) (hlen : m < buf.length) :
    ConstrUpTo (shiftOne buf (m - 1)) (m + 1) := by
  intro i hi
  rw [shiftOne_length] at hi
  unfold shiftOne
  have hm1 : m - 1 + 1 = m := by omega
  rcases Nat.lt_trichotomy i (m - 1) with hlt | heq | hgt
  · rw [getD_set_other _ _ _ _ (by omega), getD_set_other _ _ _ _ (by omega)]
    rw [hc i hi]
    omega
  · subst heq
    rw [getD_set_self _ _ _ (by simp; omega)]
    constructor
    · intro _; omega
    · intro _; simp
  · rcases Nat.lt_trichotomy i m with hlt2 | heq2 | hgt2
    · omega
    · subst heq2
      rw [getD_set_other _ _ _ _ (by omega), hm1, getD_set_self _ _ _ (by omega)]
      have := (hc (i - 1) (by omega)).mpr (by omega)
      constructor
      · intro _; omega
      · intro _; exact this
    · rw [getD_set_other _ _ _ _ (by omega), hm1, getD_set_other _ _ _ _ (by omega)]
      rw [hc i hi]
      omega

theorem constrUpTo_shiftOne_interior {α : Type} {buf : List (Slot α)} {m i : Nat}
    (hc : ConstrUpTo buf m) (hi1 : i + 1 < m) (hlen : m ≤ buf.length) :
    ConstrUpTo (shiftOne buf i) m := by
  intro j hj
  rw [shiftOne_length] at hj
  unfold shiftOne
  rcases Nat.lt_trichotomy j i with hlt | heq | hgt
  · rw [getD_set_other _ _ _ _ (by omega), getD_set_other _ _ _ _ (by omega)]
    exact hc j hj
  · subst heq
    rw [getD_set_self _ _ _ (by simp; omega)]
    constructor
    · intro _; omega
    · intro _; simp
  · rcases Nat.lt_trichotomy j (i + 1) with hlt2 | heq2 | hgt2
    · omega
    · subst heq2
      rw [getD_set_other _ _ _ _ (by omega), getD_set_self _ _ _ (by omega)]
      have := (hc i (by omega)).mpr (by omega)
      constructor
      · intro _; omega
      · intro _; exact this
    · rw [getD_set_other _ _ _ _ (by omega), getD_set_other _ _ _ _ (by omega)]
      exact hc j hj

theorem constrUpTo_moveBackRange {α : Type} {m p : Nat} :
    ∀ (k : Nat) (buf : List (Slot α)), ConstrUpTo buf m → p + k < m → m ≤ buf.length →
      ConstrUpTo (moveBackRange buf p k) m
  | 0, buf, hc, _, _ => hc
  | k + 1, buf, hc, hk, hlen => by
      rw [moveBackRange]
      exact constrUpTo_moveBackRange k (shiftOne buf (p + k))
        (constrUpTo_shiftOne_interior hc (by omega) hlen)
        (by omega) (by rw [shiftOne_length]; exact hlen)

theorem constrUpTo_moveForward {α : Type} {m : Nat} :
    ∀ (k : Nat) (buf : List (Slot α)) (p : Nat),
      ConstrUpTo buf m → p + k < m → m ≤ buf.length →
      ConstrUpTo (moveForward buf p k) m
  | 0, buf, p, hc, _, _ => hc
  | k + 1, buf, p, hc, hk, hlen => by
      rw [moveForward]
      have hstep : ConstrUpTo ((buf.set p (buf.getD (p + 1) Slot.free)).set (p + 1)
          (Slot.husk (α := α))) m := by
        intro j hj
        simp only [List.length_set] at hj
        rcases Nat.lt_trichotomy j p with hlt | heq | hgt
        · rw [getD_set_other _ _ _ _ (by omega), getD_set_other _ _ _ _ (by omega)]
          exact hc j hj
        · subst heq
          rw [getD_set_other _ _ _ _ (by omega), getD_set_self _ _ _ (by omega)]
          have := (hc (j + 1) (by omega)).mpr (by omega)
          constructor
          · intro _; omega
          · intro _; exact this
        · rcases Nat.lt_trichotomy j (p + 1) with hlt2 | heq2 | hgt2
          · omega
          · subst heq2
            rw [getD_set_self _ _ _ (by simp; omega)]
            constructor
            · intro _; omega
            · intro _; simp
          · rw [getD_set_other _ _ _ _ (by omega), getD_set_other _ _ _ _ (by omega)]
            exact hc j hj
      exact constrUpTo_moveForward k _ (p + 1) hstep (by omega)
        (by simp only [List.length_set]; exact hlen)

end AdvVec

namespace AdvVec

theorem vectorInv_mkEmpty {α : Type} : VectorInv (Vector.mkEmpty α) := by
  refine ⟨Nat.le_refl 0, ?_⟩
  intro i hi
  exact absurd hi (by simp [Vector.mkEmpty])

theorem vectorInv_sizedCtor {α : Type} (d : α) (fresh n : Nat) :
    VectorInv (Vector.sizedCtor d fresh n) := by
  refine ⟨by simp [Vector.sizedCtor], ?_⟩
  intro i hi
  simp only [Vector.sizedCtor, List.length_replicate] at hi
  simp [Vector.sizedCtor, List.getD_eq_getElem?_getD, List.getElem?_replicate, hi]

theorem vectorInv_copyCtorF {α : Type} (cf : α → Bool) (fresh : Nat)
    (src w : Vector α) (h : Vector.copyCtorF cf fresh src = some w) : VectorInv w := by
  unfold Vector.copyCtorF at h
  cases hu : uninitCopyN cf src.buf 0 src.size
      (List.replicate src.size Slot.free) 0 with
  | none => rw [hu] at h; exact absurd h (by simp)
  | some b =>
      rw [hu] at h
      simp only [Option.map_some', Option.some.injEq] at h
      subst h
      have spec := uninitCopyN_some_spec cf src.size 0 0 src.buf _ b hu
      have hlen : b.length = src.size := by simpa using spec.1
      refine ⟨by simp [hlen], ?_⟩
      intro i hi
      simp only [hlen] at hi
      have hin := spec.2.2 i hi (by simp)
      simp only [Nat.zero_add] at hin
      rw [hin.1]
      exact ⟨fun _ => hi, fun _ => hin.2⟩

theorem reserve_size {α : Type} (fresh : Nat) (v : Vector α) (n : Nat) :
    (Vector.Reserve fresh v n).size = v.size := by
  unfold Vector.Reserve
  split <;> rfl

theorem reserve_length_ge {α : Type} (fresh : Nat) (v : Vector α) (n : Nat) :
    n ≤ (Vector.Reserve fresh v n).buf.length := by
  unfold Vector.Reserve
  split
  next hle => exact hle
  next hgt => simp [uninitMoveN_length]

theorem vectorInv_reserve {α : Type} {v : Vector α} (fresh n : Nat)
    (hv : VectorInv v) : VectorInv (Vector.Reserve fresh v n) := by
  have h1 := hv.1
  unfold Vector.Reserve
  split
  next => exact hv
  next hgt =>
    have hgt2 : v.buf.length < n := by omega
    have hlen : (uninitMoveN v.buf 0 v.size
        (List.replicate n (Slot.free (α := α))) 0).length = n := by
      rw [uninitMoveN_length]
      simp
    refine ⟨?_, ?_⟩
    · show v.size ≤ (uninitMoveN v.buf 0 v.size
        (List.replicate n (Slot.free (α := α))) 0).length
      omega
    · show ConstrUpTo (uninitMoveN v.buf 0 v.size
        (List.replicate n (Slot.free (α := α))) 0) v.size
      intro i hi
      rw [hlen] at hi
      by_cases his : i < v.size
      · have hin := uninitMoveN_getD_in v.size 0 0 i v.buf
          (List.replicate n (Slot.free (α := α))) his (by simp; omega)
        simp only [Nat.zero_add] at hin
        rw [hin]
        exact ⟨fun _ => his, fun _ => (hv.2 i (by omega)).mpr his⟩
      · have hout := uninitMoveN_getD_ge v.size 0 0 i v.buf
          (List.replicate n (Slot.free (α := α))) (by omega)
        rw [hout]
        constructor
        · intro hne
          exact absurd (by simp [List.getD_eq_getElem?_getD,
            List.getElem?_replicate, hi]) hne
        · intro hlt
          exact absurd hlt his

theorem vectorInv_popBack {α : Type} {v : Vector α} (hv : VectorInv v) :
    VectorInv (Vector.PopBack v) := by
  have h1 := hv.1
  unfold Vector.PopBack
  split
  next hpos =>
    refine ⟨?_, ?_⟩
    · show v.size - 1 ≤ (v.buf.set (v.size - 1) Slot.free).length
      simp only [List.length_set]
      omega
    · show ConstrUpTo (v.buf.set (v.size - 1) Slot.free) (v.size - 1)
      intro i hi
      simp only [List.length_set] at hi
      by_cases hieq : i = v.size - 1
      · subst hieq
        rw [getD_set_self _ _ _ (by omega)]
        simp
      · rw [getD_set_other _ _ _ _ (Ne.symm hieq)]
        rw [hv.2 i hi]
        omega
  next => exact hv

theorem vectorInv_resize {α : Type} {v : Vector α} (d : α) (fresh n : Nat)
    (hv : VectorInv v) : VectorInv (Vector.Resize d fresh v n) := by
  have h1 := hv.1
  unfold Vector.Resize
  split
  next hle =>
    refine ⟨?_, ?_⟩
    · show n ≤ (setRange Slot.free v.buf n (v.size - n)).length
      rw [setRange_length]
      omega
    · show ConstrUpTo (setRange Slot.free v.buf n (v.size - n)) n
      intro i hi
      rw [setRange_length] at hi
      by_cases hin : n ≤ i ∧ i < v.size
      · rw [setRange_getD_in _ _ _ _ _ hin.1 (by omega) hi]
        constructor
        · intro hne
          exact absurd rfl hne
        · intro hlt
          exact absurd hlt (by omega)
      · rw [setRange_getD_out _ _ _ _ _ (by omega)]
        rw [hv.2 i hi]
        omega
  next hgt =>
    have hr := vectorInv_reserve (v := v) fresh n hv
    have hrsz := reserve_size fresh v n
    have hrlen := reserve_length_ge fresh v n
    have hr1 := hr.1
    refine ⟨?_, ?_⟩
    · show n ≤ (setRange (Slot.val d)
        (Vector.Reserve fresh v n).buf v.size (n - v.size)).length
      rw [setRange_length]
      omega
    · show ConstrUpTo (setRange (Slot.val d)
        (Vector.Reserve fresh v n).buf v.size (n - v.size)) n
      intro i hi
      rw [setRange_length] at hi
      by_cases hin : v.size ≤ i ∧ i < n
      · rw [setRange_getD_in _ _ _ _ _ hin.1 (by omega) hi]
        constructor
        · intro _
          omega
        · intro _
          simp
      · rw [setRange_getD_out _ _ _ _ _ (by omega)]
        have hc := hr.2 i hi
        rw [hrsz] at hc
        rw [hc]
        omega

end AdvVec

namespace AdvVec

theorem vectorInv_emplace {α : Type} {v : Vector α} {p : Nat} (fresh : Nat) (x : α)
    (hv : VectorInv v) (hp : p ≤ v.size) : VectorInv (Vector.Emplace fresh v p x) := by
  have h1 := hv.1
  unfold Vector.Emplace
  split
  next hfull =>
    have hcapge : v.size + 1 ≤ (if v.size = 0 then 1 else v.size * 2) := by
      by_cases h0 : v.size = 0
      · simp [h0]
      · rw [if_neg h0]
        omega
    have hlen0 : ((List.replicate (if v.size = 0 then 1 else v.size * 2)
        (Slot.free (α := α))).set p (Slot.val x)).length =
        (if v.size = 0 then 1 else v.size * 2) := by
      simp
    have hlen1 : (uninitMoveN v.buf 0 p ((List.replicate
        (if v.size = 0 then 1 else v.size * 2) (Slot.free (α := α))).set p
        (Slot.val x)) 0).length = (if v.size = 0 then 1 else v.size * 2) := by
      rw [uninitMoveN_length, hlen0]
    have hlen2 : (uninitMoveN v.buf p (v.size - p) (uninitMoveN v.buf 0 p
        ((List.replicate (if v.size = 0 then 1 else v.size * 2)
        (Slot.free (α := α))).set p (Slot.val x)) 0) (p + 1)).length =
        (if v.size = 0 then 1 else v.size * 2) := by
      rw [uninitMoveN_length, hlen1]
    refine ⟨?_, ?_⟩
    · show v.size + 1 ≤ (uninitMoveN v.buf p (v.size - p) (uninitMoveN v.buf 0 p
        ((List.replicate (if v.size = 0 then 1 else v.size * 2)
        (Slot.free (α := α))).set p (Slot.val x)) 0) (p + 1)).length
      omega
    · show ConstrUpTo (uninitMoveN v.buf p (v.size - p) (uninitMoveN v.buf 0 p
        ((List.replicate (if v.size = 0 then 1 else v.size * 2)
        (Slot.free (α := α))).set p (Slot.val x)) 0) (p + 1)) (v.size + 1)
      intro i hi
      rw [hlen2] at hi
      rcases Nat.lt_trichotomy i p with hlt | heq | hgt
      · rw [uninitMoveN_getD_lt (v.size - p) p (p + 1) i _ _ (by omega)]
        have hin := uninitMoveN_getD_in p 0 0 i v.buf
          ((List.replicate (if v.size = 0 then 1 else v.size * 2)
            (Slot.free (α := α))).set p (Slot.val x)) hlt (by rw [hlen0]; omega)
        simp only [Nat.zero_add] at hin
        rw [hin]
        have hvi := hv.2 i (by omega)
        rw [hvi]
        omega
      · subst heq
        rw [uninitMoveN_getD_lt (v.size - i) i (i + 1) i _ _ (by omega)]
        rw [uninitMoveN_getD_ge i 0 0 i _ _ (by omega)]
        rw [getD_set_self _ _ _ (by simp; omega)]
        constructor
        · intro _
          omega
        · intro _
          simp
      · by_cases hhi : i < v.size + 1
        · obtain ⟨j0, rfl⟩ : ∃ j0, i = p + 1 + j0 := ⟨i - p - 1, by omega⟩
          have hin := uninitMoveN_getD_in (v.size - p) p (p + 1) j0 v.buf
            (uninitMoveN v.buf 0 p ((List.replicate
              (if v.size = 0 then 1 else v.size * 2)
              (Slot.free (α := α))).set p (Slot.val x)) 0)
            (by omega) (by rw [hlen1]; omega)
          rw [hin]
          have hvi := hv.2 (p + j0) (by omega)
          rw [hvi]
          omega
        · rw [uninitMoveN_getD_ge (v.size - p) p (p + 1) i _ _ (by omega)]
          rw [uninitMoveN_getD_ge p 0 0 i _ _ (by omega)]
          rw [getD_set_other _ _ _ _ (by omega)]
          constructor
          · intro hne
            exact absurd (by simp [List.getD_eq_getElem?_getD,
              List.getElem?_replicate, hi]) hne
          · intro hlt
            exact absurd hlt hhi
  next hfull =>
    split
    next hzero =>
      have hp0 : p = 0 := by omega
      subst hp0
      have hlpos : 0 < v.buf.length := by omega
      refine ⟨?_, ?_⟩
      · show v.size + 1 ≤ (v.buf.set 0 (Slot.val x)).length
        simp only [List.length_set]
        omega
      · show ConstrUpTo (v.buf.set 0 (Slot.val x)) (v.size + 1)
        intro i hi
        simp only [List.length_set] at hi
        by_cases hi0 : i = 0
        · subst hi0
          rw [getD_set_self _ _ _ hlpos]
          constructor
          · intro _
            omega
          · intro _
            simp
        · rw [getD_set_other _ _ _ _ (Ne.symm hi0)]
          rw [hv.2 i hi]
          omega
    next hzero =>
      have hslen : v.size < v.buf.length := by omega
      have hb1 := constrUpTo_shiftOne_extend hv.2 (by omega) hslen
      have hb1len : (shiftOne v.buf (v.size - 1)).length = v.buf.length :=
        shiftOne_length v.buf (v.size - 1)
      have hb2 := constrUpTo_moveBackRange (m := v.size + 1) (p := p) (v.size - p)
        (shiftOne v.buf (v.size - 1)) hb1 (by omega) (by omega)
      have hb2len : (moveBackRange (shiftOne v.buf (v.size - 1)) p
          (v.size - p)).length = v.buf.length := by
        rw [moveBackRange_length, hb1len]
      refine ⟨?_, ?_⟩
      · show v.size + 1 ≤ (((moveBackRange (shiftOne v.buf (v.size - 1)) p
          (v.size - p)).set p Slot.free).set p (Slot.val x)).length
        simp only [List.length_set]
        omega
      · show ConstrUpTo (((moveBackRange (shiftOne v.buf (v.size - 1)) p
          (v.size - p)).set p Slot.free).set p (Slot.val x)) (v.size + 1)
        intro i hi
        simp only [List.length_set] at hi
        by_cases hip : i = p
        · subst hip
          rw [getD_set_self _ _ _ (by simp only [List.length_set]; omega)]
          constructor
          · intro _
            omega
          · intro _
            simp
        · rw [getD_set_other _ _ _ _ (Ne.symm hip),
            getD_set_other _ _ _ _ (Ne.symm hip)]
          rw [hb2 i (by omega)]

theorem vectorInv_erase {α : Type} {v : Vector α} {p : Nat} (hv : VectorInv v)
    (hp : p < v.size) : VectorInv (Vector.Erase v p) := by
  have h1 := hv.1
  unfold Vector.Erase
  apply vectorInv_popBack
  refine ⟨?_, ?_⟩
  · show v.size ≤ (moveForward v.buf p (v.size - (p + 1))).length
    rw [moveForward_length]
    exact h1
  · show ConstrUpTo (moveForward v.buf p (v.size - (p + 1))) v.size
    exact constrUpTo_moveForward (v.size - (p + 1)) v.buf p hv.2 (by omega) h1

end AdvVec

namespace AdvVec

theorem vectorInv_copyAssignF_ok {α : Type} {dst rhs w : Vector α} (cf : α → Bool)
    (fresh : Nat) (hdst : VectorInv dst)
    (h : Vector.copyAssignF cf fresh dst rhs = Except.ok w) : VectorInv w := by
  have h1 := hdst.1
  unfold Vector.copyAssignF at h
  split at h
  next hgt =>
    split at h
    next hc => exact absurd h (by simp)
    next c hc =>
      simp only [Except.ok.injEq] at h
      subst h
      exact vectorInv_copyCtorF cf fresh rhs c hc
  next hle =>
    split at h
    next hsh =>
      split at h
      next hb => exact absurd h (by simp)
      next b1 hb1 =>
        simp only [Except.ok.injEq] at h
        subst h
        have spec := stdCopy_ok_spec cf rhs.size 0 rhs.buf dst.buf b1 hb1
        refine ⟨?_, ?_⟩
        · show rhs.size ≤ (setRange Slot.free b1 rhs.size (dst.size - rhs.size)).length
          rw [setRange_length, spec.1]
          omega
        · show ConstrUpTo (setRange Slot.free b1 rhs.size (dst.size - rhs.size)) rhs.size
          intro i hi
          rw [setRange_length, spec.1] at hi
          by_cases hin : rhs.size ≤ i ∧ i < dst.size
          · rw [setRange_getD_in _ _ _ _ _ hin.1 (by omega) (by rw [spec.1]; omega)]
            exact ⟨fun hne => absurd rfl hne, fun hlt => absurd hlt (by omega)⟩
          · rw [setRange_getD_out _ _ _ _ _ (by omega)]
            by_cases his : i < rhs.size
            · have hcp := spec.2.2 i (Nat.zero_le i) (by omega) (by omega)
              rw [hcp.1]
              exact ⟨fun _ => his, fun _ => hcp.2⟩
            · rw [spec.2.1 i (by omega)]
              rw [hdst.2 i hi]
              omega
    next hsh =>
      split at h
      next hb => exact absurd h (by simp)
      next b1 hb1 =>
        split at h
        next hu => exact absurd h (by simp)
        next b2 hb2 =>
          simp only [Except.ok.injEq] at h
          subst h
          have s1 := stdCopy_ok_spec cf dst.size 0 rhs.buf dst.buf b1 hb1
          have s2 := uninitCopyN_some_spec cf (rhs.size - dst.size) dst.size
            dst.size rhs.buf b1 b2 hb2
          have hb1len : b1.length = dst.buf.length := s1.1
          refine ⟨?_, ?_⟩
          · show rhs.size ≤ b2.length
            rw [s2.1, hb1len]
            omega
          · show ConstrUpTo b2 rhs.size
            intro i hi
            rw [s2.1, hb1len] at hi
            by_cases hlt : i < dst.size
            · rw [s2.2.1 i (by omega)]
              have hcp := s1.2.2 i (Nat.zero_le i) (by omega) (by omega)
              rw [hcp.1]
              exact ⟨fun _ => by omega, fun _ => hcp.2⟩
            · by_cases his : i < rhs.size
              · obtain ⟨j0, rfl⟩ : ∃ j0, i = dst.size + j0 := ⟨i - dst.size, by omega⟩
                have hcp := s2.2.2 j0 (by omega) (by rw [hb1len]; omega)
                rw [hcp.1]
                exact ⟨fun _ => his, fun _ => hcp.2⟩
              · rw [s2.2.1 i (by omega)]
                rw [s1.2.1 i (by omega)]
                rw [hdst.2 i hi]
                omega

theorem vectorInv_copyAssignF_error {α : Type} {dst rhs e : Vector α} (cf : α → Bool)
    (fresh : Nat) (hdst : VectorInv dst)
    (h : Vector.copyAssignF cf fresh dst rhs = Except.error e) : VectorInv e := by
  have h1 := hdst.1
  unfold Vector.copyAssignF at h
  split at h
  next hgt =>
    split at h
    next hc =>
      simp only [Except.error.injEq] at h
      subst h
      exact hdst
    next c hc => exact absurd h (by simp)
  next hle =>
    split at h
    next hsh =>
      split at h
      next b hb =>
        simp only [Except.error.injEq] at h
        subst h
        have espec := stdCopy_error_spec cf rhs.size 0 rhs.buf dst.buf b hb
        refine ⟨?_, ?_⟩
        · show dst.size ≤ b.length
          rw [espec.1]
          omega
        · show ConstrUpTo b dst.size
          intro i hi
          rw [espec.1] at hi
          rcases espec.2 i hi with heq | hcon
          · rw [heq]
            exact hdst.2 i hi
          · exact ⟨fun _ => by omega, fun _ => hcon.2.2⟩
      next b1 hb1 => exact absurd h (by simp)
    next hsh =>
      split at h
      next b hb =>
        simp only [Except.error.injEq] at h
        subst h
        have espec := stdCopy_error_spec cf dst.size 0 rhs.buf dst.buf b hb
        refine ⟨?_, ?_⟩
        · show dst.size ≤ b.length
          rw [espec.1]
          omega
        · show ConstrUpTo b dst.size
          intro i hi
          rw [espec.1] at hi
          rcases espec.2 i hi with heq | hcon
          · rw [heq]
            exact hdst.2 i hi
          · exact ⟨fun _ => by omega, fun _ => hcon.2.2⟩
      next b1 hb1 =>
        split at h
        next hu =>
          simp only [Except.error.injEq] at h
          subst h
          have s1 := stdCopy_ok_spec cf dst.size 0 rhs.buf dst.buf b1 hb1
          refine ⟨?_, ?_⟩
          · show dst.size ≤ b1.length
            rw [s1.1]
            omega
          · show ConstrUpTo b1 dst.size
            intro i hi
            rw [s1.1] at hi
            by_cases his : i < dst.size
            · have hcp := s1.2.2 i (Nat.zero_le i) (by omega) (by omega)
              rw [hcp.1]
              exact ⟨fun _ => his, fun _ => hcp.2⟩
            · rw [s1.2.1 i (by omega)]
              rw [hdst.2 i hi]
        next b2 hb2 => exact absurd h (by simp)

end AdvVec

namespace AdvVec

instance {α : Type} [DecidableEq α] (buf : List (Slot α)) (m : Nat) :
    Decidable (ConstrUpTo buf m) := by
  unfold ConstrUpTo
  infer_instance

instance {α : Type} [DecidableEq α] (v : Vector α) : Decidable (VectorInv v) := by
  unfold VectorInv
  infer_instance

end AdvVec

/-! ## Claim C8: the class invariant -/

/-- C8.  Every public operation establishes or preserves the `Vector`
invariant: `size ≤ capacity`, every slot in `[0, size)` holds a live
constructed element, and every slot in `[size, capacity)` is unconstructed
(`VectorInv`).  Covered operations: default, sized, copy and move
construction; copy assignment (both its success result and the state it
leaves behind when an element copy throws), move assignment; swap; reserve;
resize; pop_back; emplace (hence emplace_back, push_back and insert) at any
position `p ≤ size`; erase at any position `p < size`.  The final conjunct
expresses that indexing and destruction only ever touch live constructed
elements: under the invariant every slot in `[0, size)` is constructed. -/
theorem vector_invariant_preservation {α : Type} (d x : α) (cf : α → Bool)
    (fresh n p : Nat) (v w : AdvVec.Vector α) :
    AdvVec.VectorInv (AdvVec.Vector.mkEmpty α) ∧
    AdvVec.VectorInv (AdvVec.Vector.sizedCtor d fresh n) ∧
    (∀ u, AdvVec.Vector.copyCtorF cf fresh v = some u → AdvVec.VectorInv u) ∧
    (AdvVec.VectorInv v →
      AdvVec.VectorInv (AdvVec.Vector.moveCtorV v).1 ∧
      AdvVec.VectorInv (AdvVec.Vector.moveCtorV v).2) ∧
    (AdvVec.VectorInv v → AdvVec.VectorInv w →
      AdvVec.VectorInv (AdvVec.Vector.moveAssignV v w).1 ∧
      AdvVec.VectorInv (AdvVec.Vector.moveAssignV v w).2) ∧
    (AdvVec.VectorInv v → AdvVec.VectorInv w →
      AdvVec.VectorInv (AdvVec.Vector.swapV v w).1 ∧
      AdvVec.VectorInv (AdvVec.Vector.swapV v w).2) ∧
    (AdvVec.VectorInv v →
      (∀ u, AdvVec.Vector.copyAssignF cf fresh v w = Except.ok u →
        AdvVec.VectorInv u) ∧
      (∀ u, AdvVec.Vector.copyAssignF cf fresh v w = Except.error u →
        AdvVec.VectorInv u)) ∧
    (AdvVec.VectorInv v → AdvVec.VectorInv (AdvVec.Vector.Reserve fresh v n)) ∧
    (AdvVec.VectorInv v → AdvVec.VectorInv (AdvVec.Vector.Resize d fresh v n)) ∧
    (AdvVec.VectorInv v → AdvVec.VectorInv (AdvVec.Vector.PopBack v)) ∧
    (AdvVec.VectorInv v → p ≤ v.size →
      AdvVec.VectorInv (AdvVec.Vector.Emplace fresh v p x)) ∧
    (AdvVec.VectorInv v → p < v.size → AdvVec.VectorInv (AdvVec.Vector.Erase v p)) ∧
    (AdvVec.VectorInv v → ∀ i, i < v.size →
      v.buf.getD i AdvVec.Slot.free ≠ AdvVec.Slot.free) := by
  refine ⟨AdvVec.vectorInv_mkEmpty, AdvVec.vectorInv_sizedCtor d fresh n,
    fun u hu => AdvVec.vectorInv_copyCtorF cf fresh v u hu,
    fun hv => ⟨hv, AdvVec.vectorInv_mkEmpty⟩,
    fun hv hw => ⟨hw, hv⟩,
    fun hv hw => ⟨hw, hv⟩,
    fun hv => ⟨fun u hu => AdvVec.vectorInv_copyAssignF_ok cf fresh hv hu,
      fun u hu => AdvVec.vectorInv_copyAssignF_error cf fresh hv hu⟩,
    fun hv => AdvVec.vectorInv_reserve fresh n hv,
    fun hv => AdvVec.vectorInv_resize d fresh n hv,
    fun hv => AdvVec.vectorInv_popBack hv,
    fun hv hp => AdvVec.vectorInv_emplace fresh x hv hp,
    fun hv hp => AdvVec.vectorInv_erase hv hp,
    fun hv i hi => (hv.2 i (by have := hv.1; omega)).mpr hi⟩

/-- C8, witness at concrete inputs: the invariant of the vector holding the
value 1 with capacity 2 is preserved by an emplace at position 0, an erase
at position 0, and a resize to 2. -/
theorem vector_invariant_preservation_witness :
    AdvVec.VectorInv (AdvVec.Vector.Emplace 3
      (⟨0, [AdvVec.Slot.val 1, AdvVec.Slot.free], 1⟩ : AdvVec.Vector Nat) 0 5) ∧
    AdvVec.VectorInv (AdvVec.Vector.Erase
      (⟨0, [AdvVec.Slot.val 1, AdvVec.Slot.free], 1⟩ : AdvVec.Vector Nat) 0) ∧
    AdvVec.VectorInv (AdvVec.Vector.Resize (0 : Nat) 3
      (⟨0, [AdvVec.Slot.val 1, AdvVec.Slot.free], 1⟩ : AdvVec.Vector Nat) 2) := by
  have h := vector_invariant_preservation (0 : Nat) 5 (fun _ => false) 3 2 0
    (⟨0, [AdvVec.Slot.val 1, AdvVec.Slot.free], 1⟩ : AdvVec.Vector Nat)
    ⟨1, [AdvVec.Slot.val 4], 1⟩
  refine ⟨?_, ?_, ?_⟩
  · exact h.2.2.2.2.2.2.2.2.2.2.1 (by decide) (by decide)
  · exact h.2.2.2.2.2.2.2.2.2.2.2.1 (by decide) (by decide)
  · exact h.2.2.2.2.2.2.2.2.1 (by decide)
